import Mathlib

/-!
Shallow embedding of the intern-all crate (src/token.rs, src/typed_interner.rs,
src/interner.rs, src/global.rs).

Modelling conventions, fixed once for the whole file:
* Heap addresses (the `NonZeroUsize` pointer values behind `Tok::id` and
  `Tok::interner_id`) are natural numbers; fresh allocations (`Arc::new`)
  draw strictly increasing addresses from an explicit allocation counter
  `nextAddr`.  Well-formed states keep every address nonzero.
* Whether a `WeakTok` upgrades is recorded per table row as an explicit
  `live : Bool` flag: `live = true` models `upgrade()` returning `Some`,
  `live = false` models a dead row.
* The `hashbrown` raw-entry lookup (hash the probe, then scan for a key that
  is `Eq`-equal to it) is modelled as a search of the table for an equal key,
  relying on the documented `Hash`/`Eq` agreement contract of `Internable`.
* A borrowed probe `q : &Q` with `Q: ToOwned<Owned = T>` is represented by
  its owned form `q.to_owned() : T`; the `Borrow` contract makes the stored
  key compare equal to the probe exactly when it equals the owned form.
* Rust panics are modelled as `Except.error` carrying the panic message.
-/

/-- Model of `Tok<T>` (src/token.rs lines 30-34): a token strongly owns the
stored value and the `TypedInterner` that produced it.  `addr` is the address
of the value allocation (the payload of the `Arc<T>` shared with the table
key) and `interner_addr` the address of the owning interner. -/
structure Tok (T : Type) where
  data : T
  addr : Nat
  interner_addr : Nat
deriving DecidableEq

/-- Model of `Tok::id` (src/token.rs lines 44-47): the pointer value of the
token's data allocation. -/
def Tok.id {T : Type} (t : Tok T) : Nat := t.addr

/-- Model of `Tok::interner_id` (src/token.rs lines 50-53): the pointer value
of the owning interner. -/
def Tok.interner_id {T : Type} (t : Tok T) : Nat := t.interner_addr

/-- Model of `impl Deref for Tok` (src/token.rs lines 93-97): read-only access
to the underlying value. -/
def Tok.deref {T : Type} (t : Tok T) : T := t.data

/-- Model of `Tok::assert_comparable` (src/token.rs lines 58-60): the
`assert_eq!` panic is modelled as `Except.error` with the panic message. -/
def Tok.assert_comparable {T : Type} (a b : Tok T) : Except String Unit :=
  if a.interner_id = b.interner_id then Except.ok ()
  else Except.error "Tokens must come from the same interner"

/-- Model of `impl PartialEq for Tok` (src/token.rs lines 110-115): first
`assert_comparable`, then compare `id()`s. -/
def Tok.eq {T : Type} (a b : Tok T) : Except String Bool :=
  match a.assert_comparable b with
  | Except.error e => Except.error e
  | Except.ok _ => Except.ok (decide (a.id = b.id))

/-- Model of `impl Ord for Tok` (src/token.rs lines 117-122): first
`assert_comparable`, then order by `id()`. -/
def Tok.cmp {T : Type} (a b : Tok T) : Except String Ordering :=
  match a.assert_comparable b with
  | Except.error e => Except.error e
  | Except.ok _ => Except.ok (compare a.id b.id)

/-- One row of the `HashMap<Arc<T>, WeakTok<T>>` of a `TypedInterner`
(src/typed_interner.rs line 14): the stored key, the address of the key's
allocation (shared with every token handed out for this row), and whether the
row's `WeakTok` still upgrades. -/
structure Entry (T : Type) where
  key : T
  addr : Nat
  live : Bool
deriving DecidableEq

/-- Model of `TypedInterner<T>` (src/typed_interner.rs lines 13-15).
`tokens` is the table (hash-table iteration order is immaterial, so a list is
used), `nextAddr` is the allocation counter described in the file header, and
`self_addr` is the interner's own address, which `Tok::interner_id` reads. -/
structure TypedInterner (T : Type) where
  tokens : List (Entry T)
  nextAddr : Nat
  self_addr : Nat
deriving DecidableEq

/-- Model of `TypedInterner::size` (src/typed_interner.rs line 24): the number
of stored rows. -/
def TypedInterner.size {T : Type} (st : TypedInterner T) : Nat :=
  st.tokens.length

/-- Model of `TypedInterner::sweep` (src/typed_interner.rs lines 27-31):
`extract_if(|_, v| v.upgrade().is_none()).count()` removes every row whose
`WeakTok` does not upgrade and returns how many were removed. -/
def TypedInterner.sweep {T : Type} (st : TypedInterner T) :
    Nat × TypedInterner T :=
  ((st.tokens.filter (fun e => !e.live)).length,
    ⟨st.tokens.filter (fun e => e.live), st.nextAddr, st.self_addr⟩)

/-- Replace the first row whose key equals `q` by `newE`, leaving every other
row in place.  This models `and_replace_entry_with` removing the dead row and
`or_insert_with` filling the slot back in (src/typed_interner.rs lines
45-57): the table is unordered, so re-using the row's position is a
presentation choice only. -/
def replaceFirst {T : Type} [DecidableEq T] (q : T) (newE : Entry T) :
    List (Entry T) → List (Entry T)
  | [] => []
  | e :: rest =>
    if e.key = q then newE :: rest else e :: replaceFirst q newE rest

/-- Model of the `raw_entry_mut` chain inside `TypedInterner::i`
(src/typed_interner.rs lines 42-57).  The first component is the `ret`
variable right before the final `expect`:
* a row with an equal key whose `WeakTok` upgrades sets `ret` to the upgraded
  token (data and address of the stored key, this interner) and keeps the
  table unchanged (`and_replace_entry_with` returning `Some(v)`);
* a row with an equal key that is dead is removed by the closure propagating
  `None`, and `or_insert_with` stores a fresh allocation of the probe's owned
  form with the new token's `WeakTok`;
* with no equal key, `or_insert_with` does the same on the untouched table. -/
def TypedInterner.i_step {T : Type} [DecidableEq T] (st : TypedInterner T)
    (q : T) : Option (Tok T) × TypedInterner T :=
  match st.tokens.find? (fun e => decide (e.key = q)) with
  | some e =>
    if e.live then
      (some ⟨e.key, e.addr, st.self_addr⟩, st)
    else
      (some ⟨q, st.nextAddr, st.self_addr⟩,
        ⟨replaceFirst q ⟨q, st.nextAddr, true⟩ st.tokens, st.nextAddr + 1,
          st.self_addr⟩)
  | none =>
    (some ⟨q, st.nextAddr, st.self_addr⟩,
      ⟨st.tokens ++ [⟨q, st.nextAddr, true⟩], st.nextAddr + 1, st.self_addr⟩)

/-- Model of `TypedInterner::i` (src/typed_interner.rs lines 35-59): the
`ret.expect(..)` at line 58 is modelled by `Option.getD` with an arbitrary
fallback token; the totality theorem for claim C3 shows the fallback is never
taken. -/
def TypedInterner.i {T : Type} [DecidableEq T] (st : TypedInterner T)
    (q : T) : Tok T × TypedInterner T :=
  ((st.i_step q).fst.getD ⟨q, 0, st.self_addr⟩, (st.i_step q).snd)

/-- Well-formedness of a table state, maintained by the real program: the
table is a map (keys pairwise distinct), distinct rows sit at distinct
allocations, every address is nonzero (`NonZeroUsize`) and was produced by
the allocation counter, which is itself positive. -/
def TypedInterner.WF {T : Type} (st : TypedInterner T) : Prop :=
  (st.tokens.map Entry.key).Nodup ∧ (st.tokens.map Entry.addr).Nodup ∧
    (∀ e ∈ st.tokens, 0 < e.addr ∧ e.addr < st.nextAddr) ∧ 0 < st.nextAddr

instance {T : Type} [DecidableEq T] (st : TypedInterner T) :
    Decidable st.WF := by
  unfold TypedInterner.WF; infer_instance

/-- Model of `Tok::append` (src/token.rs lines 81-84): re-intern the
dereferenced sequence with the suffix concatenated, in the token's own
interner (whose table state is passed explicitly). -/
def Tok.append {E : Type} [DecidableEq E] (t : Tok (List (Tok E)))
    (suf : List (Tok E)) (st : TypedInterner (List (Tok E))) :
    Tok (List (Tok E)) × TypedInterner (List (Tok E)) :=
  st.i (t.data ++ suf)

/-- Model of `Tok::prepend` (src/token.rs lines 87-90). -/
def Tok.prepend {E : Type} [DecidableEq E] (t : Tok (List (Tok E)))
    (pre : List (Tok E)) (st : TypedInterner (List (Tok E))) :
    Tok (List (Tok E)) × TypedInterner (List (Tok E)) :=
  st.i (pre ++ t.data)

/-- One row of the registry's `HashMap<TypeId, Arc<dyn AnyInterner>>`
(src/interner.rs line 30).  `TypeId` is modelled as a natural-number code `t`
drawn from an ambient family `U` of storable types; the type-erased handle is
the dependent pair of the code with the concrete table, which is exactly what
the checked downcast recovers. -/
abbrev RegEntry (U : Nat → Type) := (t : Nat) × TypedInterner (U t)

/-- Model of `Interner` (src/interner.rs lines 29-31): the type-keyed
collection of typed tables. -/
structure Interner (U : Nat → Type) where
  interners : List (RegEntry U)

/-- Sweep the first table registered under type code `t`, leaving every other
table untouched; if no table has that code, nothing changes and the count is
zero.  This is the table mutation performed through the `Arc<dyn AnyInterner>`
in `Interner::sweep_type` (src/interner.rs lines 60-67). -/
def sweepTypeList {U : Nat → Type} (t : Nat) :
    List (RegEntry U) → Nat × List (RegEntry U)
  | [] => (0, [])
  | e :: rest =>
    if e.fst = t then
      ((e.snd.sweep).fst, ⟨e.fst, (e.snd.sweep).snd⟩ :: rest)
    else
      ((sweepTypeList t rest).fst, e :: (sweepTypeList t rest).snd)

/-- Model of `Interner::sweep_type` (src/interner.rs lines 60-67): look the
type code up in the map; `None` yields 0, otherwise that type's table is
swept through its type-erased handle. -/
def Interner.sweep_type {U : Nat → Type} (reg : Interner U) (t : Nat) :
    Nat × Interner U :=
  match reg.interners.find? (fun e => decide (e.fst = t)) with
  | none => (0, reg)
  | some _ =>
    ((sweepTypeList t reg.interners).fst,
      ⟨(sweepTypeList t reg.interners).snd⟩)

/-- Model of `Interner::sweep` (src/interner.rs lines 70-72):
`values().map(|v| v.sweep()).sum()` sweeps every registered table and sums
the counts. -/
def Interner.sweep {U : Nat → Type} (reg : Interner U) : Nat × Interner U :=
  ((reg.interners.map (fun e => (e.snd.sweep).fst)).sum,
    ⟨reg.interners.map (fun e => ⟨e.fst, (e.snd.sweep).snd⟩)⟩)

/-- Model of `std::sync::OnceLock::get_or_init` for the global singleton
(src/global.rs line 9): returns the value, the cell's new state, and whether
the init closure ran (the side effect `set_global` observes through its
`done` flag). -/
def getOrInit {A : Type} (s : Option A) (f : Unit → A) :
    A × Option A × Bool :=
  match s with
  | some a => (a, some a, false)
  | none => (f (), some (f ()), true)

/-- Model of `get_global` (src/global.rs lines 12-14): `get_or_init` with the
default constructor; `mk` stands for `Box::leak(Box::new(Interner::new()))`,
producing the fresh instance together with its identity. -/
def get_global {A : Type} (mk : Unit → A) (s : Option A) : A × Option A :=
  ((getOrInit s mk).1, (getOrInit s mk).2.1)

/-- Model of `set_global` (src/global.rs lines 17-24): `done` starts `false`
and is set exactly when the init closure runs, so the returned flag is the
third component of `getOrInit`. -/
def set_global {A : Type} (i : Unit → A) (s : Option A) : Bool × Option A :=
  ((getOrInit s i).2.2, (getOrInit s i).2.1)

/-- The lock-relevant events of one call of `Interner::i`
(src/interner.rs lines 39-46), in program order. -/
inductive LockEvent
  | lock_interners
  | get_interner
  | typed_intern
  | unlock_interners
deriving DecidableEq

/-- The event trace of `Interner::i`, read off the source: the guard
`interners = self.interners.lock().unwrap()` is created first,
`get_interner(&mut interners)` resolves or creates the table while borrowing
the guard, the tail expression `interner.i(q)` performs the delegated typed
intern, and the guard is dropped when the function returns, since Rust drops
a function body's locals only after its tail expression has been
evaluated. -/
def interner_i_events : List LockEvent :=
  [LockEvent.lock_interners, LockEvent.get_interner, LockEvent.typed_intern,
    LockEvent.unlock_interners]

/-- Whether the registry map lock is held when the first occurrence of
`target` is executed in the trace, given whether it is held on entry. -/
def interners_lock_held_at (target : LockEvent) :
    List LockEvent → Bool → Bool
  | [], _ => false
  | e :: rest, h =>
    if e = target then h
    else
      interners_lock_held_at target rest
        (match e with
        | LockEvent.lock_interners => true
        | LockEvent.unlock_interners => false
        | _ => h)

/-! ### Lemmas about table lookup and row replacement -/

theorem find_entry_key {T : Type} [DecidableEq T] {l : List (Entry T)} {q : T}
    {e : Entry T} (h : l.find? (fun x => decide (x.key = q)) = some e) :
    e ∈ l ∧ e.key = q := by
  refine ⟨List.mem_of_find?_eq_some h, ?_⟩
  have hp := List.find?_some h
  simpa using hp

theorem find_entry_of_mem {T : Type} [DecidableEq T] {l : List (Entry T)}
    (hnd : (l.map Entry.key).Nodup) {e : Entry T} (he : e ∈ l) {q : T}
    (hk : e.key = q) :
    l.find? (fun x => decide (x.key = q)) = some e := by
  induction l with
  | nil => cases he
  | cons a rest ih =>
    rw [List.map_cons, List.nodup_cons] at hnd
    rcases List.mem_cons.mp he with rfl | hmem
    · exact List.find?_cons_of_pos _ (by simpa using hk)
    · have hane : a.key ≠ q := by
        intro hak
        exact hnd.1 (hak ▸ hk ▸ List.mem_map_of_mem Entry.key hmem)
      rw [List.find?_cons_of_neg _ (by simpa using hane)]
      exact ih hnd.2 hmem

theorem entry_unique {T : Type} [DecidableEq T] {l : List (Entry T)}
    (hnd : (l.map Entry.key).Nodup) {e e2 : Entry T} (he : e ∈ l)
    (he2 : e2 ∈ l) (hk : e.key = e2.key) : e = e2 := by
  have h1 := find_entry_of_mem hnd he hk
  have h2 := find_entry_of_mem hnd he2 rfl
  rw [h1] at h2
  exact Option.some_injective _ h2

theorem replaceFirst_of_no_match {T : Type} [DecidableEq T] {q : T}
    {newE : Entry T} {l : List (Entry T)} (h : ∀ e ∈ l, e.key ≠ q) :
    replaceFirst q newE l = l := by
  induction l with
  | nil => rfl
  | cons a rest ih =>
    rw [replaceFirst, if_neg (h a (List.mem_cons_self a rest))]
    rw [ih (fun e he => h e (List.mem_cons_of_mem a he))]

theorem replaceFirst_map_key {T : Type} [DecidableEq T] {q : T} {n : Nat}
    {b : Bool} (l : List (Entry T)) :
    (replaceFirst q ⟨q, n, b⟩ l).map Entry.key = l.map Entry.key := by
  induction l with
  | nil => rfl
  | cons a rest ih =>
    by_cases ha : a.key = q
    · rw [replaceFirst, if_pos ha]
      simp [ha]
    · rw [replaceFirst, if_neg ha]
      simp [ih]

theorem mem_replaceFirst {T : Type} [DecidableEq T] {q : T}
    {newE x : Entry T} {l : List (Entry T)}
    (h : x ∈ replaceFirst q newE l) : x ∈ l ∨ x = newE := by
  induction l with
  | nil => cases h
  | cons a rest ih =>
    by_cases ha : a.key = q
    · rw [replaceFirst, if_pos ha] at h
      rcases List.mem_cons.mp h with rfl | hmem
      · exact Or.inr rfl
      · exact Or.inl (List.mem_cons_of_mem a hmem)
    · rw [replaceFirst, if_neg ha] at h
      rcases List.mem_cons.mp h with rfl | hmem
      · exact Or.inl (List.mem_cons_self _ _)
      · rcases ih hmem with hl | hr
        · exact Or.inl (List.mem_cons_of_mem a hl)
        · exact Or.inr hr

theorem mem_replaceFirst_of_key_ne {T : Type} [DecidableEq T] {q : T}
    {newE x : Entry T} {l : List (Entry T)} (hx : x ∈ l) (hk : x.key ≠ q) :
    x ∈ replaceFirst q newE l := by
  induction l with
  | nil => cases hx
  | cons a rest ih =>
    rcases List.mem_cons.mp hx with rfl | hmem
    · rw [replaceFirst, if_neg hk]
      exact List.mem_cons_self _ _
    · by_cases ha : a.key = q
      · rw [replaceFirst, if_pos ha]
        exact List.mem_cons_of_mem _ hmem
      · rw [replaceFirst, if_neg ha]
        exact List.mem_cons_of_mem _ (ih hmem)

theorem length_replaceFirst {T : Type} [DecidableEq T] (q : T)
    (newE : Entry T) (l : List (Entry T)) :
    (replaceFirst q newE l).length = l.length := by
  induction l with
  | nil => rfl
  | cons a rest ih =>
    by_cases ha : a.key = q
    · rw [replaceFirst, if_pos ha]; simp
    · rw [replaceFirst, if_neg ha]; simp [ih]

theorem not_mem_replaceFirst {T : Type} [DecidableEq T] {q : T}
    {newE e : Entry T} {l : List (Entry T)}
    (hnd : (l.map Entry.key).Nodup) (he : e ∈ l) (hk : e.key = q)
    (hne : e ≠ newE) : e ∉ replaceFirst q newE l := by
  induction l with
  | nil => cases he
  | cons a rest ih =>
    rw [List.map_cons, List.nodup_cons] at hnd
    by_cases ha : a.key = q
    · rw [replaceFirst, if_pos ha]
      have hea : e = a := by
        rcases List.mem_cons.mp he with rfl | hmem
        · rfl
        · exact absurd (ha ▸ hk ▸ List.mem_map_of_mem Entry.key hmem) hnd.1
      intro hcon
      rcases List.mem_cons.mp hcon with rfl | hmem
      · exact hne rfl
      · have hmap : e.key ∈ rest.map Entry.key :=
          List.mem_map_of_mem Entry.key hmem
        rw [hk, ← ha] at hmap
        exact hnd.1 hmap
    · rw [replaceFirst, if_neg ha]
      have hea : e ≠ a := fun hcon => ha (hcon ▸ hk)
      have hmem : e ∈ rest := by
        rcases List.mem_cons.mp he with rfl | hm
        · exact absurd rfl hea
        · exact hm
      intro hcon
      rcases List.mem_cons.mp hcon with rfl | hm
      · exact hea rfl
      · exact ih hnd.2 hmem hm

theorem find?_replaceFirst {T : Type} [DecidableEq T] {q : T} {n : Nat}
    {b : Bool} {l : List (Entry T)} {e : Entry T}
    (h : l.find? (fun x => decide (x.key = q)) = some e) :
    (replaceFirst q ⟨q, n, b⟩ l).find? (fun x => decide (x.key = q)) =
      some ⟨q, n, b⟩ := by
  induction l with
  | nil => cases h
  | cons a rest ih =>
    by_cases ha : a.key = q
    · rw [replaceFirst, if_pos ha]
      exact List.find?_cons_of_pos _ (by simp)
    · rw [replaceFirst, if_neg ha]
      rw [List.find?_cons_of_neg _ (by simpa using ha)] at h
      rw [List.find?_cons_of_neg _ (by simpa using ha)]
      exact ih h

theorem find?_append_singleton {T : Type} [DecidableEq T]
    {l : List (Entry T)} {q : T}
    (h : l.find? (fun x => decide (x.key = q)) = none) {x : Entry T}
    (hx : x.key = q) :
    (l ++ [x]).find? (fun e => decide (e.key = q)) = some x := by
  induction l with
  | nil =>
    have hone : ([x] : List (Entry T)).find? (fun e => decide (e.key = q)) =
        some x := List.find?_cons_of_pos _ (by simp [hx])
    simpa using hone
  | cons a rest ih =>
    rw [List.find?_eq_none] at h
    have ha : ¬(a.key = q) := by
      simpa using h a (List.mem_cons_self a rest)
    rw [List.cons_append, List.find?_cons_of_neg _ (by simpa using ha)]
    exact ih (List.find?_eq_none.mpr
      (fun y hy => h y (List.mem_cons_of_mem a hy)))

theorem map_addr_replaceFirst_nodup {T : Type} [DecidableEq T] {q : T}
    {n : Nat} {l : List (Entry T)}
    (hnd : (l.map Entry.addr).Nodup) (hb : ∀ e ∈ l, e.addr < n) :
    ((replaceFirst q ⟨q, n, true⟩ l).map Entry.addr).Nodup := by
  induction l with
  | nil => simp [replaceFirst]
  | cons a rest ih =>
    rw [List.map_cons, List.nodup_cons] at hnd
    by_cases ha : a.key = q
    · rw [replaceFirst, if_pos ha, List.map_cons, List.nodup_cons]
      refine ⟨?_, hnd.2⟩
      intro hcon
      rcases List.mem_map.mp hcon with ⟨y, hy, hya⟩
      exact absurd hya (Nat.ne_of_lt (hb y (List.mem_cons_of_mem a hy)))
    · rw [replaceFirst, if_neg ha, List.map_cons, List.nodup_cons]
      refine ⟨?_, ih hnd.2 (fun y hy => hb y (List.mem_cons_of_mem a hy))⟩
      intro hcon
      rcases List.mem_map.mp hcon with ⟨y, hy, hya⟩
      rcases mem_replaceFirst hy with hmem | rfl
      · exact hnd.1 (hya ▸ List.mem_map_of_mem Entry.addr hmem)
      · exact absurd hya (Nat.ne_of_gt (hb a (List.mem_cons_self a rest)))

/-! ### Equation lemmas for the three branches of the intern operation -/

theorem i_live {T : Type} [DecidableEq T] {st : TypedInterner T} {q : T}
    {e : Entry T} (h : st.tokens.find? (fun x => decide (x.key = q)) = some e)
    (hl : e.live = true) :
    st.i q = (⟨e.key, e.addr, st.self_addr⟩, st) := by
  unfold TypedInterner.i TypedInterner.i_step
  rw [h]
  simp [hl]

theorem i_dead {T : Type} [DecidableEq T] {st : TypedInterner T} {q : T}
    {e : Entry T} (h : st.tokens.find? (fun x => decide (x.key = q)) = some e)
    (hl : e.live = false) :
    st.i q = (⟨q, st.nextAddr, st.self_addr⟩,
      ⟨replaceFirst q ⟨q, st.nextAddr, true⟩ st.tokens, st.nextAddr + 1,
        st.self_addr⟩) := by
  unfold TypedInterner.i TypedInterner.i_step
  rw [h]
  simp [hl]

theorem i_miss {T : Type} [DecidableEq T] {st : TypedInterner T} {q : T}
    (h : st.tokens.find? (fun x => decide (x.key = q)) = none) :
    st.i q = (⟨q, st.nextAddr, st.self_addr⟩,
      ⟨st.tokens ++ [⟨q, st.nextAddr, true⟩], st.nextAddr + 1,
        st.self_addr⟩) := by
  unfold TypedInterner.i TypedInterner.i_step
  rw [h]
  simp

/-! ### Derived facts about the intern operation -/

theorem i_data {T : Type} [DecidableEq T] (st : TypedInterner T) (q : T) :
    (st.i q).fst.data = q := by
  cases hf : st.tokens.find? (fun x => decide (x.key = q)) with
  | none => rw [i_miss hf]
  | some e =>
    cases hl : e.live with
    | true => rw [i_live hf hl]; exact (find_entry_key hf).2
    | false => rw [i_dead hf hl]

theorem i_interner {T : Type} [DecidableEq T] (st : TypedInterner T)
    (q : T) :
    (st.i q).fst.interner_addr = st.self_addr ∧
      (st.i q).snd.self_addr = st.self_addr := by
  cases hf : st.tokens.find? (fun x => decide (x.key = q)) with
  | none => rw [i_miss hf]; exact ⟨rfl, rfl⟩
  | some e =>
    cases hl : e.live with
    | true => rw [i_live hf hl]; exact ⟨rfl, rfl⟩
    | false => rw [i_dead hf hl]; exact ⟨rfl, rfl⟩

theorem i_find_after {T : Type} [DecidableEq T] (st : TypedInterner T)
    (q : T) :
    (st.i q).snd.tokens.find? (fun x => decide (x.key = q)) =
      some ⟨q, (st.i q).fst.addr, true⟩ := by
  cases hf : st.tokens.find? (fun x => decide (x.key = q)) with
  | none =>
    rw [i_miss hf]
    exact find?_append_singleton hf rfl
  | some e =>
    cases hl : e.live with
    | true =>
      rw [i_live hf hl]
      obtain ⟨hm, hk⟩ := find_entry_key hf
      cases e with
      | mk k a lv =>
        simp only at hk hl
        subst hk
        subst hl
        exact hf
    | false =>
      rw [i_dead hf hl]
      exact find?_replaceFirst hf

theorem i_mem_after {T : Type} [DecidableEq T] (st : TypedInterner T)
    (q : T) :
    (⟨q, (st.i q).fst.addr, true⟩ : Entry T) ∈ (st.i q).snd.tokens :=
  (find_entry_key (i_find_after st q)).1

theorem i_idem {T : Type} [DecidableEq T] (st : TypedInterner T) (q : T) :
    (st.i q).snd.i q =
      (⟨q, (st.i q).fst.addr, (st.i q).snd.self_addr⟩, (st.i q).snd) :=
  i_live (i_find_after st q) rfl

theorem i_addr_lt {T : Type} [DecidableEq T] {st : TypedInterner T}
    (hwf : st.WF) (q : T) :
    (st.i q).fst.addr < (st.i q).snd.nextAddr := by
  cases hf : st.tokens.find? (fun x => decide (x.key = q)) with
  | none => rw [i_miss hf]; exact Nat.lt_succ_self _
  | some e =>
    cases hl : e.live with
    | true =>
      rw [i_live hf hl]
      exact (hwf.2.2.1 e (find_entry_key hf).1).2
    | false => rw [i_dead hf hl]; exact Nat.lt_succ_self _

theorem i_nextAddr_le {T : Type} [DecidableEq T] (st : TypedInterner T)
    (q : T) : st.nextAddr ≤ (st.i q).snd.nextAddr := by
  cases hf : st.tokens.find? (fun x => decide (x.key = q)) with
  | none => rw [i_miss hf]; exact Nat.le_succ _
  | some e =>
    cases hl : e.live with
    | true => rw [i_live hf hl]
    | false => rw [i_dead hf hl]; exact Nat.le_succ _

theorem i_WF {T : Type} [DecidableEq T] {st : TypedInterner T}
    (hwf : st.WF) (q : T) : (st.i q).snd.WF := by
  obtain ⟨hkey, haddr, hbound, hpos⟩ := hwf
  cases hf : st.tokens.find? (fun x => decide (x.key = q)) with
  | none =>
    rw [i_miss hf]
    rw [List.find?_eq_none] at hf
    refine ⟨?_, ?_, ?_, Nat.succ_pos _⟩
    · rw [List.map_append, List.nodup_append]
      refine ⟨hkey, List.nodup_singleton _, ?_⟩
      intro k hk hk1
      rcases List.mem_map.mp hk with ⟨y, hy, rfl⟩
      have hyk : y.key = q := by simpa using hk1
      have hny : ¬y.key = q := by simpa using hf y hy
      exact hny hyk
    · rw [List.map_append, List.nodup_append]
      refine ⟨haddr, List.nodup_singleton _, ?_⟩
      intro k hk hk1
      rcases List.mem_map.mp hk with ⟨y, hy, rfl⟩
      have hyq : y.addr = st.nextAddr := by simpa using hk1
      exact absurd hyq (Nat.ne_of_lt (hbound y hy).2)
    · intro e he
      rcases List.mem_append.mp he with hm | hm
      · exact ⟨(hbound e hm).1, Nat.lt_succ_of_lt (hbound e hm).2⟩
      · have : e = ⟨q, st.nextAddr, true⟩ := by simpa using hm
        subst this
        exact ⟨hpos, Nat.lt_succ_self _⟩
  | some e =>
    cases hl : e.live with
    | true => rw [i_live hf hl]; exact ⟨hkey, haddr, hbound, hpos⟩
    | false =>
      rw [i_dead hf hl]
      refine ⟨?_, ?_, ?_, Nat.succ_pos _⟩
      · rw [replaceFirst_map_key]; exact hkey
      · exact map_addr_replaceFirst_nodup haddr (fun y hy => (hbound y hy).2)
      · intro x hx
        rcases mem_replaceFirst hx with hm | rfl
        · exact ⟨(hbound x hm).1, Nat.lt_succ_of_lt (hbound x hm).2⟩
        · exact ⟨hpos, Nat.lt_succ_self _⟩

theorem filter_live_length_split {T : Type} (l : List (Entry T)) :
    (l.filter (fun e => e.live)).length +
      (l.filter (fun e => !e.live)).length = l.length := by
  induction l with
  | nil => rfl
  | cons a rest ih =>
    cases ha : a.live <;> simp [List.filter_cons, ha] <;> omega

/-! ### Claims about the typed interner and tokens -/

/-- Claim C1: idempotence of interning.  If the table holds a row for `v`
whose `WeakTok` still upgrades (which is the case whenever a live `Tok` for
`v` exists, since that `Tok` strongly owns both the value and the table),
then interning `v` again — the probe's owned form equals `v` — returns a
token whose `id()` is the address of that row, i.e. the `id()` of every
existing token for `v`, and leaves the table unchanged. -/
theorem intern_idempotent_on_live {T : Type} [DecidableEq T]
    (st : TypedInterner T) (v : T) (a : Nat) (hwf : st.WF)
    (hmem : (⟨v, a, true⟩ : Entry T) ∈ st.tokens) :
    (st.i v).fst.id = a ∧ (st.i v).snd = st := by
  have hf := find_entry_of_mem hwf.1 hmem rfl
  rw [i_live hf rfl]
  exact ⟨rfl, rfl⟩

/-- Witness for C1 at a concrete state: a table holding `5` at address 1. -/
theorem intern_idempotent_on_live_witness :
    ((⟨[⟨5, 1, true⟩], 2, 9⟩ : TypedInterner Nat).i 5).fst.id = 1 ∧
      ((⟨[⟨5, 1, true⟩], 2, 9⟩ : TypedInterner Nat).i 5).snd =
        ⟨[⟨5, 1, true⟩], 2, 9⟩ :=
  intern_idempotent_on_live ⟨[⟨5, 1, true⟩], 2, 9⟩ 5 1 (by decide) (by decide)

/-- Claim C2: sweep correctness.  `sweep` keeps exactly the rows whose
`WeakTok` upgrades (and keeps them unchanged), returns the number of removed
rows, and afterwards `size` equals the old size minus the returned count and
equals the number of live rows; the allocation counter and the interner
identity are untouched. -/
theorem sweep_removes_exactly_dead {T : Type} (st : TypedInterner T) :
    (∀ e : Entry T,
      e ∈ (st.sweep).snd.tokens ↔ e ∈ st.tokens ∧ e.live = true)
    ∧ (st.sweep).fst = (st.tokens.filter (fun e => !e.live)).length
    ∧ (st.sweep).snd.size + (st.sweep).fst = st.size
    ∧ (st.sweep).snd.size = (st.tokens.filter (fun e => e.live)).length
    ∧ (st.sweep).snd.nextAddr = st.nextAddr
    ∧ (st.sweep).snd.self_addr = st.self_addr := by
  refine ⟨?_, rfl, ?_, rfl, rfl, rfl⟩
  · intro e
    simp [TypedInterner.sweep, List.mem_filter]
  · exact filter_live_length_split st.tokens

/-- Claim C4: token comparison semantics.  Equality and ordering first check
that the two tokens carry the same owning-interner identity; a mismatch makes
both fail with the fatal message from `assert_comparable` — they never
return `false` silently — while on a match equality holds exactly on equal
`id()`s, disequality exactly on distinct `id()`s, and ordering is the total
order `compare` on the `id()` values. -/
theorem tok_eq_cmp_same_interner {T : Type} (a b : Tok T) :
    (a.interner_id ≠ b.interner_id →
      a.eq b = Except.error "Tokens must come from the same interner" ∧
      a.cmp b = Except.error "Tokens must come from the same interner")
    ∧ (a.interner_id = b.interner_id →
      (a.eq b = Except.ok true ↔ a.id = b.id) ∧
      (a.eq b = Except.ok false ↔ a.id ≠ b.id) ∧
      a.cmp b = Except.ok (compare a.id b.id)) := by
  constructor
  · intro h
    constructor <;> simp [Tok.eq, Tok.cmp, Tok.assert_comparable, h]
  · intro h
    refine ⟨?_, ?_, ?_⟩ <;>
      simp [Tok.eq, Tok.cmp, Tok.assert_comparable, h]

/-- Witness for C4: the same logical value interned in two independent
interner instances (identities 1 and 2) compares fatally, and two tokens of
one interner compare by id. -/
theorem tok_eq_cmp_same_interner_witness :
    (Tok.mk 5 1 1).eq (Tok.mk 5 1 2) =
      Except.error "Tokens must come from the same interner" ∧
      ((Tok.mk 5 1 1).eq (Tok.mk 5 1 1) = Except.ok true ↔
        (1 : Nat) = 1) :=
  ⟨((tok_eq_cmp_same_interner (Tok.mk 5 1 1) (Tok.mk 5 1 2)).1
      (by decide)).1,
    ((tok_eq_cmp_same_interner (Tok.mk 5 1 1) (Tok.mk 5 1 1)).2 rfl).1⟩

/-- Claim C5: distinctness.  Interning two unequal values through the same
table, in sequence, yields tokens with different `id()` values. -/
theorem distinct_values_distinct_token_ids {T : Type} [DecidableEq T]
    (st : TypedInterner T) (v1 v2 : T) (hwf : st.WF) (hne : v1 ≠ v2) :
    (((st.i v1).snd).i v2).fst.id ≠ (st.i v1).fst.id := by
  have hwf1 : (st.i v1).snd.WF := i_WF hwf v1
  have hmem1 : (⟨v1, (st.i v1).fst.addr, true⟩ : Entry T) ∈
      (st.i v1).snd.tokens := i_mem_after st v1
  have hlt : (st.i v1).fst.addr < (st.i v1).snd.nextAddr :=
    (hwf1.2.2.1 _ hmem1).2
  cases hf : (st.i v1).snd.tokens.find? (fun x => decide (x.key = v2)) with
  | none =>
    rw [i_miss hf]
    exact Nat.ne_of_gt hlt
  | some e =>
    cases hl : e.live with
    | false =>
      rw [i_dead hf hl]
      exact Nat.ne_of_gt hlt
    | true =>
      rw [i_live hf hl]
      intro haddr
      obtain ⟨hm, hk⟩ := find_entry_key hf
      have hinj := List.inj_on_of_nodup_map hwf1.2.1
      have heq : e = ⟨v1, (st.i v1).fst.addr, true⟩ := hinj hm hmem1 haddr
      exact hne (by rw [← hk, heq])

/-- Witness for C5: interning 5 then 6 in an empty table gives different
ids. -/
theorem distinct_values_distinct_token_ids_witness :
    ((((⟨[], 1, 9⟩ : TypedInterner Nat).i 5).snd).i 6).fst.id ≠
      ((⟨[], 1, 9⟩ : TypedInterner Nat).i 5).fst.id :=
  distinct_values_distinct_token_ids ⟨[], 1, 9⟩ 5 6 (by decide) (by decide)

/-- Claim C10 (implicit): interning returns a handle to the interned value —
dereferencing the token produced by `i(q)` yields exactly the probe's owned
form, on a live hit (the stored key, which equals the probe), on a dead-hit
repair, and on a miss (the freshly stored owned form). -/
theorem intern_deref_eq_probe {T : Type} [DecidableEq T]
    (st : TypedInterner T) (q : T) : (st.i q).fst.deref = q :=
  i_data st q

theorem i_step_total {T : Type} [DecidableEq T] (st : TypedInterner T)
    (q : T) : (st.i_step q).fst = some (st.i q).fst := by
  have h : ∃ t, (st.i_step q).fst = some t := by
    unfold TypedInterner.i_step
    cases hf : st.tokens.find? (fun e => decide (e.key = q)) with
    | none => exact ⟨_, rfl⟩
    | some e => cases hl : e.live <;> simp [hl]
  obtain ⟨t, ht⟩ := h
  unfold TypedInterner.i
  rw [ht]
  rfl

/-- Claim C3: intern is total and repairs dead hits.  The `ret` value at the
final `expect` is always `some`, so intern always produces a token; when the
table holds a row for `q` whose `WeakTok` no longer upgrades, that row is
replaced by the fresh token's row (the old row is gone, every row for another
key survives, the size is unchanged, and the fresh token sits at a new
address); on a genuine miss the probe's owned form is stored and a new token
for it returned, growing the table by one row. -/
theorem intern_total_dead_hit_miss {T : Type} [DecidableEq T]
    (st : TypedInterner T) (q : T) (hwf : st.WF) :
    ((st.i_step q).fst = some (st.i q).fst)
    ∧ (∀ e ∈ st.tokens, e.key = q → e.live = false →
        (st.i q).fst.data = q ∧ (st.i q).fst.id = st.nextAddr
        ∧ (⟨q, st.nextAddr, true⟩ : Entry T) ∈ (st.i q).snd.tokens
        ∧ e ∉ (st.i q).snd.tokens
        ∧ (∀ x ∈ st.tokens, x.key ≠ q → x ∈ (st.i q).snd.tokens)
        ∧ (st.i q).snd.size = st.size
        ∧ (st.i q).fst.id ≠ e.addr)
    ∧ ((∀ e ∈ st.tokens, e.key ≠ q) →
        (st.i q).fst.data = q ∧ (st.i q).fst.id = st.nextAddr
        ∧ (⟨q, st.nextAddr, true⟩ : Entry T) ∈ (st.i q).snd.tokens
        ∧ (∀ x ∈ st.tokens, x ∈ (st.i q).snd.tokens)
        ∧ (st.i q).snd.size = st.size + 1) := by
  refine ⟨i_step_total st q, ?_, ?_⟩
  · intro e he hk hl
    have hf := find_entry_of_mem hwf.1 he hk
    have hne : e ≠ (⟨q, st.nextAddr, true⟩ : Entry T) := by
      intro hcon
      rw [hcon] at hl
      cases hl
    rw [i_dead hf hl]
    refine ⟨rfl, rfl, ?_, ?_, ?_, ?_, ?_⟩
    · exact (find_entry_key (find?_replaceFirst hf)).1
    · exact not_mem_replaceFirst hwf.1 he hk hne
    · exact fun x hx hxk => mem_replaceFirst_of_key_ne hx hxk
    · simp [TypedInterner.size, length_replaceFirst]
    · exact Nat.ne_of_gt (hwf.2.2.1 e he).2
  · intro h
    have hf : st.tokens.find? (fun x => decide (x.key = q)) = none :=
      List.find?_eq_none.mpr (fun x hx => by simpa using h x hx)
    rw [i_miss hf]
    refine ⟨rfl, rfl, ?_, ?_, ?_⟩
    · exact List.mem_append_right _ (List.mem_singleton.mpr rfl)
    · exact fun x hx => List.mem_append_left _ hx
    · simp [TypedInterner.size]

/-- Witness for C3 at a concrete state holding a dead row for `5`: the step
value is `some`, and the dead hit is repaired at the fresh address 2. -/
theorem intern_total_dead_hit_miss_witness :
    ((⟨[⟨5, 1, false⟩], 2, 9⟩ : TypedInterner Nat).i_step 5).fst =
      some ((⟨[⟨5, 1, false⟩], 2, 9⟩ : TypedInterner Nat).i 5).fst ∧
    ((⟨[⟨5, 1, false⟩], 2, 9⟩ : TypedInterner Nat).i 5).fst.id = 2 :=
  ⟨(intern_total_dead_hit_miss ⟨[⟨5, 1, false⟩], 2, 9⟩ 5 (by decide)).1,
    ((intern_total_dead_hit_miss ⟨[⟨5, 1, false⟩], 2, 9⟩ 5
        (by decide)).2.1 ⟨5, 1, false⟩ (by decide) rfl rfl).2.1⟩

/-- Claim C6: append/prepend round trip.  Build `L` by interning the list of
element tokens `[x, y, z]`, then `L.append([w]).prepend([v])`; the result
compares equal (token equality, same interner, same `id()`) to a direct
interning of `[v, x, y, z, w]` through the same interner. -/
theorem append_prepend_round_trip {E : Type} [DecidableEq E]
    (st st1 st2 st3 : TypedInterner (List (Tok E))) (x y z v w : Tok E)
    (L L2 L3 : Tok (List (Tok E)))
    (h1 : st.i [x, y, z] = (L, st1))
    (h2 : L.append [w] st1 = (L2, st2))
    (h3 : L2.prepend [v] st2 = (L3, st3)) :
    L3.eq (st3.i [v, x, y, z, w]).fst = Except.ok true := by
  have hL : L = (st.i [x, y, z]).fst := by rw [h1]
  have hLdata : L.data = [x, y, z] := by rw [hL]; exact i_data _ _
  have h2' : st1.i [x, y, z, w] = (L2, st2) := by
    rw [← h2]
    simp only [Tok.append, hLdata, List.cons_append, List.nil_append]
  have hL2 : L2 = (st1.i [x, y, z, w]).fst := by rw [h2']
  have hL2data : L2.data = [x, y, z, w] := by rw [hL2]; exact i_data _ _
  have h3' : st2.i [v, x, y, z, w] = (L3, st3) := by
    rw [← h3]
    simp only [Tok.prepend, hL2data, List.cons_append, List.nil_append]
  have hL3 : L3 = (st2.i [v, x, y, z, w]).fst := by rw [h3']
  have hst3 : st3 = (st2.i [v, x, y, z, w]).snd := by rw [h3']
  have hidem := i_idem st2 [v, x, y, z, w]
  rw [hst3, hidem, hL3]
  simp [Tok.eq, Tok.assert_comparable, Tok.interner_id, Tok.id,
    (i_interner st2 [v, x, y, z, w]).1, (i_interner st2 [v, x, y, z, w]).2]

/-- Witness for C6 on an initially empty table with five concrete element
tokens. -/
theorem append_prepend_round_trip_witness :
    Tok.eq (⟨[⟨4, 4, 1⟩, ⟨1, 1, 1⟩, ⟨2, 2, 1⟩, ⟨3, 3, 1⟩, ⟨5, 5, 1⟩], 3, 7⟩ :
        Tok (List (Tok Nat)))
      (((⟨[⟨[⟨1, 1, 1⟩, ⟨2, 2, 1⟩, ⟨3, 3, 1⟩], 1, true⟩,
          ⟨[⟨1, 1, 1⟩, ⟨2, 2, 1⟩, ⟨3, 3, 1⟩, ⟨5, 5, 1⟩], 2, true⟩,
          ⟨[⟨4, 4, 1⟩, ⟨1, 1, 1⟩, ⟨2, 2, 1⟩, ⟨3, 3, 1⟩, ⟨5, 5, 1⟩], 3,
            true⟩], 4, 7⟩ : TypedInterner (List (Tok Nat))).i
        [⟨4, 4, 1⟩, ⟨1, 1, 1⟩, ⟨2, 2, 1⟩, ⟨3, 3, 1⟩, ⟨5, 5, 1⟩]).fst) =
      Except.ok true :=
  append_prepend_round_trip
    ⟨[], 1, 7⟩
    ⟨[⟨[⟨1, 1, 1⟩, ⟨2, 2, 1⟩, ⟨3, 3, 1⟩], 1, true⟩], 2, 7⟩
    ⟨[⟨[⟨1, 1, 1⟩, ⟨2, 2, 1⟩, ⟨3, 3, 1⟩], 1, true⟩,
      ⟨[⟨1, 1, 1⟩, ⟨2, 2, 1⟩, ⟨3, 3, 1⟩, ⟨5, 5, 1⟩], 2, true⟩], 3, 7⟩
    ⟨[⟨[⟨1, 1, 1⟩, ⟨2, 2, 1⟩, ⟨3, 3, 1⟩], 1, true⟩,
      ⟨[⟨1, 1, 1⟩, ⟨2, 2, 1⟩, ⟨3, 3, 1⟩, ⟨5, 5, 1⟩], 2, true⟩,
      ⟨[⟨4, 4, 1⟩, ⟨1, 1, 1⟩, ⟨2, 2, 1⟩, ⟨3, 3, 1⟩, ⟨5, 5, 1⟩], 3, true⟩],
      4, 7⟩
    ⟨1, 1, 1⟩ ⟨2, 2, 1⟩ ⟨3, 3, 1⟩ ⟨4, 4, 1⟩ ⟨5, 5, 1⟩
    ⟨[⟨1, 1, 1⟩, ⟨2, 2, 1⟩, ⟨3, 3, 1⟩], 1, 7⟩
    ⟨[⟨1, 1, 1⟩, ⟨2, 2, 1⟩, ⟨3, 3, 1⟩, ⟨5, 5, 1⟩], 2, 7⟩
    ⟨[⟨4, 4, 1⟩, ⟨1, 1, 1⟩, ⟨2, 2, 1⟩, ⟨3, 3, 1⟩, ⟨5, 5, 1⟩], 3, 7⟩
    (by decide) (by decide) (by decide)

/-! ### Lemmas about the registry sweep operations -/

theorem sweepTypeList_no_match {U : Nat → Type} {t : Nat}
    {l : List (RegEntry U)} (h : ∀ e ∈ l, e.fst ≠ t) :
    sweepTypeList t l = (0, l) := by
  induction l with
  | nil => rfl
  | cons a rest ih =>
    simp only [sweepTypeList, if_neg (h a (List.mem_cons_self a rest)),
      ih (fun e he => h e (List.mem_cons_of_mem a he))]

theorem sweep_type_eq_list {U : Nat → Type} (reg : Interner U) (t : Nat) :
    reg.sweep_type t = ((sweepTypeList t reg.interners).fst,
      ⟨(sweepTypeList t reg.interners).snd⟩) := by
  unfold Interner.sweep_type
  cases hf : reg.interners.find? (fun e => decide (e.fst = t)) with
  | some e => rfl
  | none =>
    rw [List.find?_eq_none] at hf
    have h : ∀ e ∈ reg.interners, e.fst ≠ t :=
      fun e he => by simpa using hf e he
    rw [sweepTypeList_no_match h]

theorem sweepTypeList_count_found {U : Nat → Type} {t : Nat}
    {l : List (RegEntry U)} {e : RegEntry U}
    (hnd : (l.map Sigma.fst).Nodup) (he : e ∈ l) (hk : e.fst = t) :
    (sweepTypeList t l).fst = (e.snd.sweep).fst := by
  induction l with
  | nil => cases he
  | cons a rest ih =>
    rw [List.map_cons, List.nodup_cons] at hnd
    by_cases ha : a.fst = t
    · have hea : e = a := by
        rcases List.mem_cons.mp he with rfl | hm
        · rfl
        · have hmap : e.fst ∈ rest.map Sigma.fst :=
            List.mem_map_of_mem Sigma.fst hm
          rw [hk, ← ha] at hmap
          exact absurd hmap hnd.1
      subst hea
      simp only [sweepTypeList, if_pos ha]
    · have hea : e ∈ rest := by
        rcases List.mem_cons.mp he with rfl | hm
        · exact absurd hk ha
        · exact hm
      simp only [sweepTypeList, if_neg ha]
      exact ih hnd.2 hea

theorem sweepTypeList_mem_ne {U : Nat → Type} {t : Nat}
    {l : List (RegEntry U)} {e2 : RegEntry U}
    (he : e2 ∈ l) (hk : e2.fst ≠ t) : e2 ∈ (sweepTypeList t l).snd := by
  induction l with
  | nil => cases he
  | cons a rest ih =>
    by_cases ha : a.fst = t
    · simp only [sweepTypeList, if_pos ha]
      rcases List.mem_cons.mp he with rfl | hm
      · exact absurd ha hk
      · exact List.mem_cons_of_mem _ hm
    · simp only [sweepTypeList, if_neg ha]
      rcases List.mem_cons.mp he with rfl | hm
      · exact List.mem_cons_self _ _
      · exact List.mem_cons_of_mem _ (ih hm)

theorem sweepTypeList_swept_mem {U : Nat → Type} {t : Nat}
    {l : List (RegEntry U)} {e : RegEntry U}
    (hnd : (l.map Sigma.fst).Nodup) (he : e ∈ l) (hk : e.fst = t) :
    (⟨e.fst, (e.snd.sweep).snd⟩ : RegEntry U) ∈ (sweepTypeList t l).snd := by
  induction l with
  | nil => cases he
  | cons a rest ih =>
    rw [List.map_cons, List.nodup_cons] at hnd
    by_cases ha : a.fst = t
    · have hea : e = a := by
        rcases List.mem_cons.mp he with rfl | hm
        · rfl
        · have hmap : e.fst ∈ rest.map Sigma.fst :=
            List.mem_map_of_mem Sigma.fst hm
          rw [hk, ← ha] at hmap
          exact absurd hmap hnd.1
      subst hea
      simp only [sweepTypeList, if_pos ha]
      exact List.mem_cons_self _ _
    · have hea : e ∈ rest := by
        rcases List.mem_cons.mp he with rfl | hm
        · exact absurd hk ha
        · exact hm
      simp only [sweepTypeList, if_neg ha]
      exact List.mem_cons_of_mem _ (ih hnd.2 hea)

theorem sweepTypeList_sum {U : Nat → Type} {l : List (RegEntry U)}
    (hnd : (l.map Sigma.fst).Nodup) :
    ((l.map Sigma.fst).map (fun t2 => (sweepTypeList t2 l).fst)).sum =
      (l.map (fun e => (e.snd.sweep).fst)).sum := by
  induction l with
  | nil => rfl
  | cons a rest ih =>
    rw [List.map_cons, List.nodup_cons] at hnd
    have hfirst : (sweepTypeList a.fst (a :: rest)).fst =
        (a.snd.sweep).fst := by
      simp [sweepTypeList]
    have hrest : ∀ t2 ∈ rest.map Sigma.fst,
        (sweepTypeList t2 (a :: rest)).fst =
          (sweepTypeList t2 rest).fst := by
      intro t2 ht2
      have hne : a.fst ≠ t2 := fun hcon => hnd.1 (hcon ▸ ht2)
      simp [sweepTypeList, hne]
    simp only [List.map_cons, List.sum_cons]
    rw [hfirst, List.map_congr_left hrest, ih hnd.2]

/-- Claim C7: registry sweep semantics.  `sweep_type` (the crate's name for
the spec's `sweep_for`) returns 0 and changes nothing when no table is
registered under the type code; when one is, it returns exactly that table's
sweep count, replaces that table by its swept form, and every table of
another type code survives untouched; and `sweep` returns the sum of the
per-type `sweep_type` counts over every registered type code. -/
theorem registry_sweep_type_and_sweep {U : Nat → Type} (reg : Interner U)
    (t : Nat) (hnd : (reg.interners.map Sigma.fst).Nodup) :
    ((∀ e ∈ reg.interners, e.fst ≠ t) → reg.sweep_type t = (0, reg))
    ∧ (∀ e ∈ reg.interners, e.fst = t →
        (reg.sweep_type t).fst = (e.snd.sweep).fst
        ∧ (⟨e.fst, (e.snd.sweep).snd⟩ : RegEntry U) ∈
            (reg.sweep_type t).snd.interners
        ∧ (∀ e2 ∈ reg.interners, e2.fst ≠ t →
            e2 ∈ (reg.sweep_type t).snd.interners))
    ∧ (reg.sweep).fst =
        ((reg.interners.map Sigma.fst).map
          (fun t2 => (reg.sweep_type t2).fst)).sum := by
  refine ⟨?_, ?_, ?_⟩
  · intro h
    rw [sweep_type_eq_list, sweepTypeList_no_match h]
  · intro e he hk
    rw [sweep_type_eq_list]
    exact ⟨sweepTypeList_count_found hnd he hk,
      sweepTypeList_swept_mem hnd he hk,
      fun e2 he2 hk2 => sweepTypeList_mem_ne he2 hk2⟩
  · have hpt : ∀ t2 ∈ reg.interners.map Sigma.fst,
        (reg.sweep_type t2).fst = (sweepTypeList t2 reg.interners).fst :=
      fun t2 _ => by rw [sweep_type_eq_list]
    rw [List.map_congr_left hpt, sweepTypeList_sum hnd]
    rfl

/-- Witness for C7 on a registry with tables for type codes 0 and 1:
sweeping the never-used type code 2 returns 0 and changes nothing. -/
theorem registry_sweep_type_and_sweep_witness :
    Interner.sweep_type
      (⟨[⟨0, ⟨[⟨3, 1, false⟩], 2, 4⟩⟩, ⟨1, ⟨[⟨7, 1, true⟩], 2, 5⟩⟩]⟩ :
        Interner (fun _ => Nat)) 2 =
      (0, ⟨[⟨0, ⟨[⟨3, 1, false⟩], 2, 4⟩⟩, ⟨1, ⟨[⟨7, 1, true⟩], 2, 5⟩⟩]⟩) :=
  (registry_sweep_type_and_sweep
      ⟨[⟨0, ⟨[⟨3, 1, false⟩], 2, 4⟩⟩, ⟨1, ⟨[⟨7, 1, true⟩], 2, 5⟩⟩]⟩ 2
      (by decide)).1 (by decide)

/-- Claim C8: global override before first use.  `set_global` returns `true`
exactly when the singleton cell was still uninitialized, in which case it
installs the caller-supplied instance; on an already-initialized cell it
returns `false` and leaves the existing instance in place; and on any
initialized cell every later `get_global` returns that same installed
instance without changing the cell. -/
theorem set_global_before_first_use {A : Type} (i mk : Unit → A)
    (s : Option A) :
    ((set_global i s).fst = true ↔ s = none)
    ∧ (s = none → (set_global i s).snd = some (i ()))
    ∧ (∀ a : A, s = some a → set_global i s = (false, some a))
    ∧ (∀ a : A, (set_global i s).snd = some a →
        get_global mk (some a) = (a, some a)) := by
  refine ⟨?_, ?_, ?_, ?_⟩ <;>
    cases s <;> simp [set_global, get_global, getOrInit]

/-- Witness for C8: overriding an uninitialized cell succeeds with the new
instance; overriding an initialized cell fails and leaves it unchanged. -/
theorem set_global_before_first_use_witness :
    (set_global (fun _ => (42 : Nat)) none).snd = some 42 ∧
      set_global (fun _ => (7 : Nat)) (some 42) = (false, some 42) :=
  ⟨(set_global_before_first_use (fun _ => 42) (fun _ => 42) none).2.1 rfl,
    (set_global_before_first_use (fun _ => 7) (fun _ => 7)
        (some 42)).2.2.1 42 rfl⟩

/-- Claim C9, counterexample: in the event trace of `Interner::i` the
registry's type-to-table map lock IS held when the delegated
`TypedInterner::i` runs, so the claim that the lock is not held for the
duration of the delegated intern is false: the `MutexGuard` bound to
`interners` is dropped only after the tail expression `interner.i(q)` has
been evaluated. -/
theorem registry_lock_scope_cex :
    ¬(interners_lock_held_at LockEvent.typed_intern interner_i_events
        false = false) := by decide

/-- Claim C9 (amended): during `Interner::i` the registry's type-to-table
map lock is held while the per-type table handle is resolved or created AND
for the whole duration of the delegated `TypedInterner` intern; it is
released only when the call returns (the unlock is the last event of the
trace). -/
theorem interner_i_lock_scope :
    interners_lock_held_at LockEvent.get_interner interner_i_events false =
      true
    ∧ interners_lock_held_at LockEvent.typed_intern interner_i_events
        false = true
    ∧ interner_i_events.getLast? = some LockEvent.unlock_interners := by
  decide
